import Mathlib

/-!
Verification of `src/magiclens/converters/html2md.py` (dtyq/magiclens).

The file embeds the stateful Python code as pure Lean functions: a
`BeautifulSoup` tree becomes the inductive `HNode`, a Python `dict` of
options becomes an association list with Python `dict` update semantics,
mutation of `self` becomes explicit state passing (a method returns the
updated object).  Parts of the repository that html2md.py imports but
whose code is not in the repository snapshot (`core/registry.py`,
`core/service.py`) are modelled from the specification; each such
definition carries a doc comment starting `Modelled from the spec:`.
-/

set_option autoImplicit false

namespace MagicLens

/-! ## The HTML tree (BeautifulSoup nodes) -/

/-- A parsed markup node: an element with a tag name and children, a text
node, or a comment node.  Attributes are irrelevant to the claims settled
here and are omitted. -/
inductive HNode where
  | elem (tag : String) (children : List HNode)
  | text (s : String)
  | comment (s : String)
deriving Repr

/-- The self-closing tags exempted from empty-tag removal
(html2md.py line 116). -/
def selfClosingTags : List String := ["img", "br", "hr", "input", "meta", "link"]

mutual
/-- The `removeEmptyTags` block of `Html2MarkdownService._preprocess`
(html2md.py lines 112-117).  The Python code takes a snapshot
`soup.find_all()` of all elements in document (pre-)order and decomposes
each whose `contents` list is empty and whose name is not self-closing.
Because a parent precedes its descendants in pre-order, and decomposing a
node only shrinks its parent's `contents`, every element is examined while
its children list is still the original one; hence the pass removes
exactly the elements that are empty in the INPUT tree.  That single-pass
behaviour is what this recursive function computes: `none` means the node
is decomposed. -/
def removeEmptyTags : HNode → Option HNode
  | .elem tag children =>
      if children.isEmpty && !(decide (tag ∈ selfClosingTags)) then none
      else some (.elem tag (removeEmptyTagsList children))
  | .text s => some (.text s)
  | .comment s => some (.comment s)

/-- `removeEmptyTags` mapped over a children list, dropping decomposed
nodes. -/
def removeEmptyTagsList : List HNode → List HNode
  | [] => []
  | n :: ns =>
      match removeEmptyTags n with
      | some m => m :: removeEmptyTagsList ns
      | none => removeEmptyTagsList ns
end

/-! ## The postprocessing step (`Html2MarkdownService._postprocess`)

Python operates on `str`; we model a string as its list of characters and
re-implement the two `str` primitives the method uses, `split('\n')` and
`'\n'.join`, directly. -/

/-- Python `str.split('\n')`: `""` gives `[""]`, separators delimit
(possibly empty) fields. -/
def splitLines : List Char → List (List Char)
  | [] => [[]]
  | c :: cs =>
      if c = '\n' then [] :: splitLines cs
      else
        match splitLines cs with
        | [] => [[c]]
        | l :: ls => (c :: l) :: ls

/-- Python `'\n'.join`. -/
def joinLines : List (List Char) → List Char
  | [] => []
  | [l] => l
  | l :: l2 :: ls => l ++ '\n' :: joinLines (l2 :: ls)

/-- Python `str.isspace` on the characters `str.strip()` removes
(ASCII whitespace). -/
def pyIsSpace (c : Char) : Bool :=
  c = ' ' || c = '\t' || c = '\n' || c = '\r' || c = '\x0b' || c = '\x0c'

/-- `not line.strip()` (html2md.py line 140): the line is empty after
stripping whitespace. -/
def isBlankLine (l : List Char) : Bool := l.all pyIsSpace

/-- The loop of `_postprocess` (lines 135-144): walk the lines carrying
the `prev_empty` flag; a line that is blank while the previous kept line
was blank is skipped, every other line is kept and updates the flag. -/
def collapseBlankLines : Bool → List (List Char) → List (List Char)
  | _, [] => []
  | prevEmpty, l :: ls =>
      if isBlankLine l && prevEmpty then collapseBlankLines prevEmpty ls
      else l :: collapseBlankLines (isBlankLine l) ls

/-- `Html2MarkdownService._postprocess` (html2md.py lines 124-147):
split on newlines, drop each blank line whose predecessor kept line was
blank, join back with newlines. -/
def postprocess (markdown : String) : String :=
  String.mk (joinLines (collapseBlankLines false (splitLines markdown.data)))

/-- No two adjacent lines are both blank. -/
def noTwoAdjacentBlank : List (List Char) → Bool
  | [] => true
  | [_] => true
  | l1 :: l2 :: ls => !(isBlankLine l1 && isBlankLine l2) && noTwoAdjacentBlank (l2 :: ls)

/-! ## Options dictionaries

Python `dict` values in html2md.py options are strings or booleans. -/

/-- An option value. -/
inductive OptVal where
  | s (v : String)
  | b (v : Bool)
deriving Repr, DecidableEq

/-- An options dictionary: an association list whose keys Python keeps
unique; claims that need uniqueness hypothesise `Nodup` on the keys. -/
abbrev Dict := List (String × OptVal)

/-- Python `d.get(k)` / `d[k]`: the (first) binding of `k`. -/
def dlookup : Dict → String → Option OptVal
  | [], _ => none
  | (k0, v) :: rest, k => if k0 = k then some v else dlookup rest k

/-- Python `k in d`. -/
def dcontains (d : Dict) (k : String) : Bool := d.any (fun p => decide (p.1 = k))

/-- Replace every binding of `k` by `(k, v)` in place (Python keys are
unique, so replacing every one agrees with replacing the one). -/
def dreplace : Dict → String → OptVal → Dict
  | [], _, _ => []
  | (k0, v0) :: rest, k, v =>
      if k0 = k then (k, v) :: dreplace rest k v
      else (k0, v0) :: dreplace rest k v

/-- Python `d[k] = v`: replace the binding in place if the key is
present, else append it. -/
def dset (d : Dict) (k : String) (v : OptVal) : Dict :=
  if dcontains d k then dreplace d k v
  else d ++ [(k, v)]

/-- Python `d.update(u)`: set each binding of `u` in turn. -/
def dupdate (d : Dict) (u : Dict) : Dict :=
  u.foldl (fun acc kv => dset acc kv.1 kv.2) d

/-- Python `d.pop(k, default)`'s effect on `d`: the binding of `k` is
removed (Python keys are unique, so removing every binding of `k` agrees). -/
def derase (d : Dict) (k : String) : Dict := d.filter (fun p => decide (p.1 ≠ k))

/-! ## Rules and the registry -/

/-- The rule classes imported by html2md.py, plus custom user rules. -/
inductive RuleTag where
  | paragraph | heading | blockquote | pre
  | unorderedList | orderedList | taskList | listItem
  | horizontalRule | table | definitionList
  | strong | emphasis | code | link | image
  | strikethrough | subscript | superscript | text
  | custom (id : Nat)
deriving Repr, DecidableEq

/-- Modelled from the spec: the `RuleRegistry` (core/registry.py, not in
the repository snapshot) is "an ordered sequence of (name, Rule) pairs". -/
abbrev Registry := List (String × RuleTag)

/-- Modelled from the spec: `RuleRegistry.add(name, rule)` "appends". -/
def registryAdd (rules : Registry) (name : String) (r : RuleTag) : Registry :=
  rules ++ [(name, r)]

/-- Modelled from the spec: `RuleRegistry.insert(name, rule, index)`
"inserts at a position, shifting later entries". -/
def registryInsert (rules : Registry) (name : String) (r : RuleTag) (i : Nat) : Registry :=
  rules.take i ++ (name, r) :: rules.drop i

/-- The default rules in the order `_register_default_rules`
(html2md.py lines 37-70) appends them. -/
def defaultRules : Registry :=
  [("paragraph", .paragraph), ("heading", .heading), ("blockquote", .blockquote),
   ("code-block", .pre), ("unordered-list", .unorderedList), ("ordered-list", .orderedList),
   ("task-list", .taskList), ("list-item", .listItem),
   ("horizontal-rule", .horizontalRule), ("table", .table),
   ("definition-list", .definitionList),
   ("strong", .strong), ("emphasis", .emphasis), ("code", .code),
   ("link", .link), ("image", .image), ("strikethrough", .strikethrough),
   ("subscript", .subscript), ("superscript", .superscript),
   ("text", .text)]

/-- `Html2MarkdownService`: its constructor stores the options and
registers the default rules (html2md.py lines 26-35). -/
structure Service where
  options : Dict
  rules : Registry
deriving Repr, DecidableEq

/-- `Html2MarkdownService(options)`. -/
def mkService (options : Dict) : Service :=
  { options := options, rules := defaultRules }

/-- Modelled from the spec: `MagicLensService.turndown`
(core/service.py, not in the repository snapshot).  The spec describes it
as the pure pipeline preprocess → traversal → postprocess over the parsed
tree; parsing and the traversal engine are outside html2md.py, and the
claims below use only that `turndown` is a pure function of the service
and the input, so it is modelled as the postprocessing stage (the one
pipeline stage whose code is in html2md.py) applied to the input text. -/
def Service.turndown (_svc : Service) (html : String) : String :=
  postprocess html

/-! ## The converter (`Html2MarkdownConverter`) -/

/-- The CommonMark preset (html2md.py lines 200-209). -/
def commonmarkOptions : Dict :=
  [("headingStyle", .s "atx"), ("bulletListMarker", .s "*"),
   ("codeBlockStyle", .s "fenced"), ("emDelimiter", .s "*"),
   ("strongDelimiter", .s "**"), ("linkStyle", .s "inlined"),
   ("useHtmlTags", .b true), ("gfm", .b false)]

/-- The GitHub-flavored preset (html2md.py lines 212-224). -/
def githubOptions : Dict :=
  [("headingStyle", .s "atx"), ("bulletListMarker", .s "-"),
   ("codeBlockStyle", .s "fenced"), ("emDelimiter", .s "*"),
   ("strongDelimiter", .s "**"), ("linkStyle", .s "inlined"),
   ("useHtmlTags", .b true), ("gfm", .b true),
   ("strikethrough", .b true), ("tables", .b true), ("taskLists", .b true)]

/-- The traditional-Markdown preset (html2md.py lines 227-237). -/
def traditionalOptions : Dict :=
  [("headingStyle", .s "setext"), ("bulletListMarker", .s "*"),
   ("codeBlockStyle", .s "indented"), ("emDelimiter", .s "_"),
   ("strongDelimiter", .s "__"), ("linkStyle", .s "referenced"),
   ("useHtmlTags", .b true), ("gfm", .b false),
   ("smartPunctuation", .b true)]

/-- `Html2MarkdownConverter._get_dialect_options` (html2md.py lines
187-244): `dialect_options.get(dialect, {})` — the literal dict keyed by
the four dialect names, with the empty dict for any other key. -/
def getDialectOptions (dialect : OptVal) : Dict :=
  if dialect = .s "commonmark" then commonmarkOptions
  else if dialect = .s "github" then githubOptions
  else if dialect = .s "traditional" then traditionalOptions
  else if dialect = .s "custom" then []
  else []

/-- `Html2MarkdownConverter`: holds one service. -/
structure Converter where
  service : Service
deriving Repr, DecidableEq

/-- `Html2MarkdownConverter.__init__` (html2md.py lines 166-185):
pop `dialect` (default `"github"`), look up its preset, update the preset
with the remaining user options (skipped when they are empty, with the
same result), and build the service. -/
def Converter.init (options : Dict) : Converter :=
  let dialect := (dlookup options "dialect").getD (.s "github")
  let rest := derase options "dialect"
  let dialectOptions := getDialectOptions dialect
  let merged := if rest.isEmpty then dialectOptions else dupdate dialectOptions rest
  ⟨mkService merged⟩

/-- The generator expression of `Html2MarkdownConverter.register_rule`
(html2md.py line 333): the index of the first rule named `name`, with the
`-1` sentinel modelled as `none`. -/
def findRuleIdx (rules : Registry) (name : String) : Option Nat :=
  match rules with
  | [] => none
  | (n, _) :: rest =>
      if n = name then some 0 else (findRuleIdx rest name).map (· + 1)

/-- `Html2MarkdownConverter.register_rule` (html2md.py lines 318-341).
When `priority` is `None` and a rule named `"text"` exists, insert before
it; in every other case — including when a priority IS supplied, whose
value the body never reads — fall through to `service.register_rule`,
which appends. -/
def Converter.register_rule (c : Converter) (name : String) (r : RuleTag)
    (priority : Option Nat) : Converter :=
  match priority with
  | none =>
      match findRuleIdx c.service.rules "text" with
      | some i => ⟨{ c.service with rules := registryInsert c.service.rules name r i }⟩
      | none => ⟨{ c.service with rules := registryAdd c.service.rules name r }⟩
  | some _ => ⟨{ c.service with rules := registryAdd c.service.rules name r }⟩

/-- Python truthiness of an option value (`if fragment:`). -/
def truthy : OptVal → Bool
  | .b b => b
  | .s v => v != ""

/-- The kwargs left after `convert_html` pops `fragment` and
`fragment_root` (html2md.py lines 260-261). -/
def stripFragmentKeys (kwargs : Dict) : Dict :=
  derase (derase kwargs "fragment") "fragment_root"

/-- The fragment wrapping of html2md.py lines 264-266. -/
def fragmentWrap (html : String) (kwargs : Dict) : String :=
  let fragment := match dlookup kwargs "fragment" with
    | some v => truthy v
    | none => false
  let fragmentRoot := match dlookup kwargs "fragment_root" with
    | some (.s r) => r
    | _ => "div"
  if fragment then "<" ++ fragmentRoot ++ ">" ++ html ++ "</" ++ fragmentRoot ++ ">"
  else html

/-- The ephemeral service of html2md.py lines 269-272:
`self.service.options.copy()`, updated with the remaining kwargs, given
to a freshly constructed `Html2MarkdownService`. -/
def ephemeralService (c : Converter) (kwargs1 : Dict) : Service :=
  mkService (dupdate c.service.options kwargs1)

/-- `Html2MarkdownConverter.convert_html` (html2md.py lines 246-275),
returning the produced Markdown together with the converter state after
the call (the body never assigns to `self.service`, so that state is the
receiver unchanged). -/
def Converter.convert_html (c : Converter) (html : String) (kwargs : Dict) :
    String × Converter :=
  let kwargs1 := stripFragmentKeys kwargs
  let html1 := fragmentWrap html kwargs
  if kwargs1.isEmpty then (c.service.turndown html1, c)
  else ((ephemeralService c kwargs1).turndown html1, c)

/-! ## Lemmas about `_postprocess` -/

theorem splitLines_ne_nil (cs : List Char) : splitLines cs ≠ [] := by
  induction cs with
  | nil => simp [splitLines]
  | cons c cs ih =>
    simp only [splitLines]
    split
    · simp
    · cases h : splitLines cs <;> simp

theorem joinLines_splitLines (cs : List Char) : joinLines (splitLines cs) = cs := by
  induction cs with
  | nil => rfl
  | cons c cs ih =>
    simp only [splitLines]
    split
    · rename_i hc
      subst hc
      cases h : splitLines cs with
      | nil => exact absurd h (splitLines_ne_nil cs)
      | cons l ls =>
        rw [h] at ih
        simp [joinLines, ih]
    · cases h : splitLines cs with
      | nil => exact absurd h (splitLines_ne_nil cs)
      | cons l ls =>
        rw [h] at ih
        cases ls with
        | nil => simpa [joinLines] using congrArg (c :: ·) ih
        | cons l2 ls' => simpa [joinLines] using congrArg (c :: ·) ih

theorem not_mem_of_mem_splitLines (cs : List Char) (l : List Char)
    (hl : l ∈ splitLines cs) : '\n' ∉ l := by
  induction cs generalizing l with
  | nil =>
    simp [splitLines] at hl
    simp [hl]
  | cons c cs ih =>
    simp only [splitLines] at hl
    split at hl
    · rcases List.mem_cons.mp hl with h | h
      · simp [h]
      · exact ih l h
    · rename_i hc
      cases h : splitLines cs with
      | nil => exact absurd h (splitLines_ne_nil cs)
      | cons l0 ls =>
        rw [h] at hl
        rcases List.mem_cons.mp hl with h1 | h1
        · subst h1
          intro hmem
          rcases List.mem_cons.mp hmem with h2 | h2
          · exact hc h2.symm
          · exact ih l0 (by rw [h]; exact List.mem_cons_self _ _) h2
        · exact ih l (by rw [h]; exact List.mem_cons_of_mem _ h1)

theorem splitLines_of_no_newline (cs : List Char) (h : '\n' ∉ cs) :
    splitLines cs = [cs] := by
  induction cs with
  | nil => rfl
  | cons c cs ih =>
    have hc : c ≠ '\n' := fun hh => h (hh ▸ List.mem_cons_self _ _)
    have hcs : '\n' ∉ cs := fun hh => h (List.mem_cons_of_mem _ hh)
    simp only [splitLines, if_neg hc, ih hcs]

theorem splitLines_append_newline (cs rest : List Char) (h : '\n' ∉ cs) :
    splitLines (cs ++ '\n' :: rest) = cs :: splitLines rest := by
  induction cs with
  | nil => simp [splitLines]
  | cons c cs ih =>
    have hc : c ≠ '\n' := fun hh => h (hh ▸ List.mem_cons_self _ _)
    have hcs : '\n' ∉ cs := fun hh => h (List.mem_cons_of_mem _ hh)
    simp only [List.cons_append, splitLines, if_neg hc]
    rw [show cs.append ('\n' :: rest) = cs ++ '\n' :: rest from rfl, ih hcs]

theorem splitLines_joinLines (L : List (List Char)) (hne : L ≠ [])
    (hnl : ∀ l ∈ L, '\n' ∉ l) : splitLines (joinLines L) = L := by
  induction L with
  | nil => exact absurd rfl hne
  | cons l ls ih =>
    cases ls with
    | nil =>
      simp only [joinLines]
      exact splitLines_of_no_newline l (hnl l (List.mem_cons_self _ _))
    | cons l2 ls' =>
      simp only [joinLines]
      rw [splitLines_append_newline l _ (hnl l (List.mem_cons_self _ _))]
      rw [ih (by simp) (fun l0 hl0 => hnl l0 (List.mem_cons_of_mem _ hl0))]

/-- The invariant `collapseBlankLines` establishes: no kept line is blank
while the incoming `prev_empty` flag for it is set. -/
def chainOk : Bool → List (List Char) → Prop
  | _, [] => True
  | b, l :: ls => (b && isBlankLine l) = false ∧ chainOk (isBlankLine l) ls

theorem collapseBlankLines_chainOk (L : List (List Char)) :
    ∀ b, chainOk b (collapseBlankLines b L) := by
  induction L with
  | nil => intro b; trivial
  | cons l ls ih =>
    intro b
    by_cases h : (isBlankLine l && b) = true
    · rw [collapseBlankLines, if_pos h]
      exact ih b
    · rw [collapseBlankLines, if_neg h]
      refine ⟨?_, ih (isBlankLine l)⟩
      cases b <;> cases hbl : isBlankLine l <;> simp_all

theorem collapseBlankLines_of_chainOk (L : List (List Char)) :
    ∀ b, chainOk b L → collapseBlankLines b L = L := by
  induction L with
  | nil => intro b _; rfl
  | cons l ls ih =>
    intro b hok
    obtain ⟨h1, h2⟩ := hok
    rw [collapseBlankLines, if_neg (by rw [Bool.and_comm]; simp [h1])]
    rw [ih (isBlankLine l) h2]

theorem mem_collapseBlankLines (L : List (List Char)) (b : Bool) (l : List Char)
    (h : l ∈ collapseBlankLines b L) : l ∈ L := by
  induction L generalizing b with
  | nil => simp [collapseBlankLines] at h
  | cons l0 ls ih =>
    rw [collapseBlankLines] at h
    split at h
    · exact List.mem_cons_of_mem _ (ih b h)
    · rcases List.mem_cons.mp h with h1 | h1
      · exact h1 ▸ List.mem_cons_self _ _
      · exact List.mem_cons_of_mem _ (ih (isBlankLine l0) h1)

theorem noTwoAdjacentBlank_of_chainOk (L : List (List Char)) :
    ∀ b, chainOk b L → noTwoAdjacentBlank L = true := by
  induction L with
  | nil => intro b _; rfl
  | cons l ls ih =>
    intro b hok
    obtain ⟨_, h2⟩ := hok
    cases ls with
    | nil => rfl
    | cons l2 ls' =>
      obtain ⟨h21, h22⟩ := h2
      rw [noTwoAdjacentBlank]
      simp only [Bool.and_eq_true]
      exact ⟨by simp [h21], ih (isBlankLine l) ⟨h21, h22⟩⟩

theorem collapseBlankLines_false_ne_nil (L : List (List Char)) (h : L ≠ []) :
    collapseBlankLines false L ≠ [] := by
  cases L with
  | nil => exact absurd rfl h
  | cons l ls => simp [collapseBlankLines]

/-- The line decomposition of the postprocessed string is its collapsed
line list. -/
theorem splitLines_postprocess (s : String) :
    splitLines (postprocess s).data =
      collapseBlankLines false (splitLines s.data) := by
  show splitLines (joinLines (collapseBlankLines false (splitLines s.data))) = _
  refine splitLines_joinLines _ ?_ ?_
  · exact collapseBlankLines_false_ne_nil _ (splitLines_ne_nil s.data)
  · intro l hl
    exact not_mem_of_mem_splitLines s.data l (mem_collapseBlankLines _ _ _ hl)

/-! ## Lemmas about options dictionaries -/

theorem dcontains_cons (k0 : String) (v0 : OptVal) (d : Dict) (k : String) :
    dcontains ((k0, v0) :: d) k = (decide (k0 = k) || dcontains d k) := rfl

theorem dlookup_dreplace_ne (d : Dict) (k : String) (v : OptVal) (k' : String)
    (h : k ≠ k') :
    dlookup (dreplace d k v) k' = dlookup d k' := by
  induction d with
  | nil => rfl
  | cons p rest ih =>
    obtain ⟨k1, v1⟩ := p
    by_cases h1 : k1 = k
    · subst h1
      rw [dreplace, if_pos rfl, dlookup, if_neg h, dlookup, if_neg h]
      exact ih
    · rw [dreplace, if_neg h1, dlookup, dlookup]
      by_cases hk : k1 = k'
      · rw [if_pos hk, if_pos hk]
      · rw [if_neg hk, if_neg hk, ih]

theorem dlookup_dreplace_contains (d : Dict) (k : String) (v : OptVal)
    (h : dcontains d k = true) :
    dlookup (dreplace d k v) k = some v := by
  induction d with
  | nil => cases h
  | cons p rest ih =>
    obtain ⟨k1, v1⟩ := p
    by_cases h1 : k1 = k
    · rw [dreplace, if_pos h1, dlookup, if_pos rfl]
    · rw [dreplace, if_neg h1, dlookup, if_neg h1]
      rw [dcontains_cons] at h
      simp only [Bool.or_eq_true, decide_eq_true_eq] at h
      exact ih (h.resolve_left h1)

theorem dlookup_append (d d2 : Dict) (k' : String) :
    dlookup (d ++ d2) k' =
      match dlookup d k' with
      | some v => some v
      | none => dlookup d2 k' := by
  induction d with
  | nil => rfl
  | cons p rest ih =>
    obtain ⟨k1, v1⟩ := p
    rw [List.cons_append, dlookup, dlookup]
    by_cases hk : k1 = k'
    · rw [if_pos hk, if_pos hk]
    · rw [if_neg hk, if_neg hk, ih]

theorem dlookup_some_contains (d : Dict) (k : String) (v : OptVal)
    (h : dlookup d k = some v) : dcontains d k = true := by
  induction d with
  | nil => cases h
  | cons p rest ih =>
    obtain ⟨k1, v1⟩ := p
    rw [dcontains_cons]
    rw [dlookup] at h
    by_cases hk : k1 = k
    · simp [hk]
    · rw [if_neg hk] at h
      simp [ih h]

theorem dset_cons_ne (d : Dict) (k0 : String) (v0 : OptVal) (k : String) (v : OptVal)
    (h : k0 ≠ k) : dset ((k0, v0) :: d) k v = (k0, v0) :: dset d k v := by
  have hcc : dcontains ((k0, v0) :: d) k = dcontains d k := by
    rw [dcontains_cons]
    simp [h]
  by_cases hc : dcontains d k = true
  · rw [dset, hcc, if_pos hc, dset, if_pos hc, dreplace, if_neg h]
  · rw [Bool.not_eq_true] at hc
    rw [dset, hcc, hc, dset, hc]
    simp

theorem dlookup_dset (d : Dict) (k : String) (v : OptVal) (k' : String) :
    dlookup (dset d k v) k' = if k = k' then some v else dlookup d k' := by
  by_cases hc : dcontains d k = true
  · rw [dset, if_pos hc]
    by_cases hk : k = k'
    · subst hk
      rw [if_pos rfl, dlookup_dreplace_contains d k v hc]
    · rw [if_neg hk, dlookup_dreplace_ne d k v k' hk]
  · rw [Bool.not_eq_true] at hc
    rw [dset, hc]
    simp only [Bool.false_eq_true, if_false]
    rw [dlookup_append]
    cases hd : dlookup d k' with
    | some w =>
      have hk : k ≠ k' := by
        intro hh
        subst hh
        rw [dlookup_some_contains d k w hd] at hc
        cases hc
      rw [if_neg hk]
    | none =>
      show dlookup [(k, v)] k' = if k = k' then some v else none
      rw [dlookup]
      by_cases hk : k = k'
      · rw [if_pos hk, if_pos hk]
      · rw [if_neg hk, if_neg hk, dlookup]

theorem dupdate_cons (d : Dict) (k : String) (v : OptVal) (u : Dict) :
    dupdate d ((k, v) :: u) = dupdate (dset d k v) u := rfl

theorem dlookup_dupdate_notin (u : Dict) (k : String)
    (h : ∀ p ∈ u, p.1 ≠ k) :
    ∀ d : Dict, dlookup (dupdate d u) k = dlookup d k := by
  induction u with
  | nil => intro d; rfl
  | cons p u' ih =>
    intro d
    obtain ⟨k0, v0⟩ := p
    rw [dupdate_cons]
    rw [ih (fun q hq => h q (List.mem_cons_of_mem _ hq))]
    rw [dlookup_dset, if_neg (h (k0, v0) (List.mem_cons_self _ _))]

theorem dlookup_dupdate_mem (u : Dict) (k : String) (v : OptVal)
    (hnd : (u.map Prod.fst).Nodup) (h : dlookup u k = some v) :
    ∀ d : Dict, dlookup (dupdate d u) k = some v := by
  induction u with
  | nil => intro d; exact absurd h (by simp [dlookup])
  | cons p u' ih =>
    intro d
    obtain ⟨k0, v0⟩ := p
    rw [dupdate_cons]
    by_cases h0 : k0 = k
    · subst h0
      rw [dlookup, if_pos rfl] at h
      obtain rfl : v0 = v := by injection h
      have hout : ∀ p ∈ u', p.1 ≠ k0 := by
        intro p hp hpk
        have hmem : p.1 ∈ u'.map Prod.fst := List.mem_map.mpr ⟨p, hp, rfl⟩
        rw [hpk] at hmem
        exact (List.nodup_cons.mp hnd).1 hmem
      rw [dlookup_dupdate_notin u' k0 hout, dlookup_dset, if_pos rfl]
    · rw [dlookup, if_neg h0] at h
      exact ih (List.nodup_cons.mp hnd).2 h (dset d k0 v0)

theorem derase_cons (p : String × OptVal) (rest : Dict) (k0 : String) :
    derase (p :: rest) k0 =
      if p.1 = k0 then derase rest k0 else p :: derase rest k0 := by
  by_cases h : p.1 = k0 <;> simp [derase, List.filter_cons, h]

theorem dlookup_derase (d : Dict) (k0 k : String) :
    dlookup (derase d k0) k = if k0 = k then none else dlookup d k := by
  induction d with
  | nil => simp [derase, dlookup]
  | cons p rest ih =>
    obtain ⟨k1, v1⟩ := p
    rw [derase_cons]
    by_cases h1 : k1 = k0
    · subst h1
      rw [if_pos rfl, ih]
      by_cases hk : k1 = k
      · subst hk
        rw [if_pos rfl, if_pos rfl]
      · rw [if_neg hk, if_neg hk, dlookup, if_neg hk]
    · rw [if_neg h1, dlookup]
      by_cases hk : k1 = k
      · subst hk
        rw [if_pos rfl, if_neg (fun hh => h1 hh.symm), dlookup, if_pos rfl]
      · rw [if_neg hk, ih, dlookup, if_neg hk]

theorem dlookup_none_forall (d : Dict) (k : String) (h : dlookup d k = none) :
    ∀ p ∈ d, p.1 ≠ k := by
  induction d with
  | nil => intro p hp; cases hp
  | cons q rest ih =>
    obtain ⟨k0, v0⟩ := q
    rw [dlookup] at h
    intro p hp
    rcases List.mem_cons.mp hp with rfl | hp'
    · intro hk
      rw [if_pos hk] at h
      cases h
    · by_cases h0 : k0 = k
      · rw [if_pos h0] at h; cases h
      · rw [if_neg h0] at h
        exact ih h p hp'

theorem derase_keys_nodup (d : Dict) (k : String)
    (hnd : (d.map Prod.fst).Nodup) : ((derase d k).map Prod.fst).Nodup :=
  hnd.sublist ((List.filter_sublist d).map Prod.fst)

theorem dupdate_disjoint (u : Dict) (hnd : (u.map Prod.fst).Nodup) :
    ∀ d : Dict, (∀ p ∈ u, dcontains d p.1 = false) → dupdate d u = d ++ u := by
  induction u with
  | nil => intro d _; simp [dupdate]
  | cons p u' ih =>
    intro d hdis
    obtain ⟨k0, v0⟩ := p
    rw [dupdate_cons]
    have hd0 : dcontains d k0 = false := hdis (k0, v0) (List.mem_cons_self _ _)
    have hset : dset d k0 v0 = d ++ [(k0, v0)] := by
      rw [dset, if_neg (by simp [hd0])]
    rw [hset, ih (List.nodup_cons.mp hnd).2]
    · simp
    · intro p hp
      have h1 : dcontains d p.1 = false := hdis p (List.mem_cons_of_mem _ hp)
      have h2 : p.1 ≠ k0 := by
        intro hk
        have hmem : p.1 ∈ u'.map Prod.fst := List.mem_map.mpr ⟨p, hp, rfl⟩
        rw [hk] at hmem
        exact (List.nodup_cons.mp hnd).1 hmem
      simp [dcontains, List.any_append] at h1 ⊢
      exact ⟨h1, fun hh => h2 hh.symm⟩

theorem dupdate_nil_left (u : Dict) (hnd : (u.map Prod.fst).Nodup) :
    dupdate [] u = u := by
  rw [dupdate_disjoint u hnd [] (fun p _ => rfl)]
  rfl

/-! ## Lemmas about `Converter.init` -/

theorem init_lookup_user (opts : Dict) (k : String) (v : OptVal)
    (hnd : (opts.map Prod.fst).Nodup) (hk : k ≠ "dialect")
    (h : dlookup opts k = some v) :
    dlookup (Converter.init opts).service.options k = some v := by
  have hrest : dlookup (derase opts "dialect") k = some v := by
    rw [dlookup_derase, if_neg (fun hh => hk hh.symm)]
    exact h
  have hne : (derase opts "dialect").isEmpty = false := by
    cases hd : derase opts "dialect" with
    | nil => rw [hd, dlookup] at hrest; cases hrest
    | cons q rest => rfl
  show dlookup (if (derase opts "dialect").isEmpty then _ else _) k = some v
  rw [hne]
  simp only [Bool.false_eq_true, if_false]
  exact dlookup_dupdate_mem _ k v (derase_keys_nodup opts "dialect" hnd) hrest _

theorem init_lookup_preset (opts : Dict) (k : String)
    (h : dlookup opts k = none) :
    dlookup (Converter.init opts).service.options k =
      dlookup (getDialectOptions ((dlookup opts "dialect").getD (.s "github"))) k := by
  have hrest : dlookup (derase opts "dialect") k = none := by
    rw [dlookup_derase]
    by_cases hk : "dialect" = k
    · rw [if_pos hk]
    · rw [if_neg hk]; exact h
  show dlookup (if (derase opts "dialect").isEmpty then _ else _) k = _
  by_cases he : (derase opts "dialect").isEmpty = true
  · rw [he]
    simp only [if_true]
  · rw [Bool.not_eq_true] at he
    rw [he]
    simp only [Bool.false_eq_true, if_false]
    exact dlookup_dupdate_notin _ k (dlookup_none_forall _ k hrest) _

/-! ## Lemmas about the rule registry -/

theorem findRuleIdx_append (pre : Registry) (tr : RuleTag) (post : Registry)
    (name : String) (h : ∀ p ∈ pre, p.1 ≠ name) :
    findRuleIdx (pre ++ (name, tr) :: post) name = some pre.length := by
  induction pre with
  | nil => simp [findRuleIdx]
  | cons p pre' ih =>
    obtain ⟨n, r⟩ := p
    rw [List.cons_append, findRuleIdx,
      if_neg (h (n, r) (List.mem_cons_self _ _)),
      ih (fun q hq => h q (List.mem_cons_of_mem _ hq))]
    rfl

theorem registryInsert_append (pre : Registry) (y : String × RuleTag)
    (post : Registry) (name : String) (r : RuleTag) :
    registryInsert (pre ++ y :: post) name r pre.length =
      pre ++ (name, r) :: y :: post := by
  induction pre with
  | nil => simp [registryInsert]
  | cons x pre' ih =>
    simp only [List.cons_append, List.length_cons, registryInsert,
      List.take_succ_cons, List.drop_succ_cons]
    rw [registryInsert] at ih
    rw [ih]

/-- Unfolding of the merged option set built by `Converter.init`. -/
theorem init_options_def (opts : Dict) :
    (Converter.init opts).service.options =
      if (derase opts "dialect").isEmpty
      then getDialectOptions ((dlookup opts "dialect").getD (.s "github"))
      else dupdate (getDialectOptions ((dlookup opts "dialect").getD (.s "github")))
        (derase opts "dialect") := rfl

/-! ## The claims -/

/-- C1, counterexample: with `clean.removeEmptyTags` enabled, the
preprocessing pass applied to a three-level chain of nested empty `div`
elements does NOT eliminate it entirely — it removes only the innermost
`div`, leaving a two-level chain, because the pass is a single scan, not a
fixpoint iteration. -/
theorem C1_counterexample :
    removeEmptyTags (HNode.elem "div" [HNode.elem "div" [HNode.elem "div" []]]) =
      some (HNode.elem "div" [HNode.elem "div" []]) ∧
    removeEmptyTags (HNode.elem "div" [HNode.elem "div" [HNode.elem "div" []]]) ≠
      none := by
  refine ⟨rfl, ?_⟩
  intro h
  rw [show removeEmptyTags (HNode.elem "div" [HNode.elem "div" [HNode.elem "div" []]]) =
      some (HNode.elem "div" [HNode.elem "div" []]) from rfl] at h
  exact Option.noConfusion h

/-- C1, amended: the `removeEmptyTags` pass of `_preprocess` removes, in
one single pass, exactly the elements that are empty in the input tree
(excluding the self-closing allowlist); removal does not cascade to
parents emptied by the pass, so a three-level chain of nested empty `div`
elements is reduced to a two-level chain, not eliminated. -/
theorem C1_removeEmptyTags_single_pass :
    (∀ t : String, t ∉ selfClosingTags → removeEmptyTags (HNode.elem t []) = none) ∧
    (∀ (t : String) (c : HNode) (cs : List HNode),
        removeEmptyTags (HNode.elem t (c :: cs)) =
          some (HNode.elem t (removeEmptyTagsList (c :: cs)))) ∧
    removeEmptyTags (HNode.elem "div" [HNode.elem "div" [HNode.elem "div" []]]) =
      some (HNode.elem "div" [HNode.elem "div" []]) := by
  refine ⟨?_, ?_, rfl⟩
  · intro t ht
    rw [removeEmptyTags, if_pos]
    simp [ht]
  · intro t c cs
    rw [removeEmptyTags, if_neg]
    simp

/-- C1, witness: a lone empty non-self-closing element is removed. -/
theorem C1_witness : removeEmptyTags (HNode.elem "div" []) = none :=
  C1_removeEmptyTags_single_pass.1 "div" (by decide)

/-- C2: `register_rule` called with an explicit priority `0` on a freshly
constructed converter.  The claim says the rule is inserted at index `0`;
the code never reads the priority value and appends, so the rule lands at
index `20`, after every default rule. -/
theorem C2_register_rule_priority_ignored :
    ((Converter.init []).register_rule "myrule" (RuleTag.custom 0)
        (some 0)).service.rules =
      defaultRules ++ [("myrule", RuleTag.custom 0)] ∧
    findRuleIdx (((Converter.init []).register_rule "myrule" (RuleTag.custom 0)
        (some 0)).service.rules) "myrule" = some 20 := by
  exact ⟨rfl, rfl⟩

/-- C3: `register_rule` with the priority omitted inserts the new rule
immediately before the (first) rule named `"text"`, leaving every other
rule's relative order unchanged. -/
theorem C3_register_rule_default_before_text :
    ∀ (c : Converter) (name : String) (r : RuleTag) (pre post : Registry)
      (tr : RuleTag),
      c.service.rules = pre ++ ("text", tr) :: post →
      (∀ p ∈ pre, p.1 ≠ "text") →
      (c.register_rule name r none).service.rules =
        pre ++ (name, r) :: ("text", tr) :: post := by
  intro c name r pre post tr hr hpre
  simp only [Converter.register_rule, hr, findRuleIdx_append pre tr post "text" hpre]
  exact registryInsert_append pre ("text", tr) post name r

/-- C3, witness: inserting into a registry holding only the text rule
puts the new rule right before it. -/
theorem C3_witness :
    ((Converter.mk (Service.mk [] [("text", RuleTag.text)])).register_rule
        "myrule" (RuleTag.custom 0) none).service.rules =
      [("myrule", RuleTag.custom 0), ("text", RuleTag.text)] :=
  C3_register_rule_default_before_text ⟨⟨[], [("text", RuleTag.text)]⟩⟩ "myrule"
    (RuleTag.custom 0) [] [] RuleTag.text rfl
    (fun p hp => absurd hp (List.not_mem_nil p))

/-- C4: constructing a converter with an unknown dialect name does not
fail: the dialect lookup yields the empty option set, so the constructed
service's options are exactly the user-supplied overrides (minus the
popped `dialect` key). -/
theorem C4_unknown_dialect_empty_preset :
    ∀ d : String, d ∉ ["commonmark", "github", "traditional", "custom"] →
      (getDialectOptions (.s d) = [] ∧
       ∀ opts : Dict, (opts.map Prod.fst).Nodup →
         dlookup opts "dialect" = some (.s d) →
         (Converter.init opts).service.options = derase opts "dialect") := by
  intro d hd
  simp only [List.mem_cons, List.not_mem_nil, or_false, not_or] at hd
  obtain ⟨h1, h2, h3, h4⟩ := hd
  have e : ∀ x : String, d ≠ x → OptVal.s d ≠ OptVal.s x :=
    fun x hx hh => hx (by injection hh)
  have hopt : getDialectOptions (.s d) = [] := by
    rw [getDialectOptions, if_neg (e _ h1), if_neg (e _ h2), if_neg (e _ h3),
      if_neg (e _ h4)]
  refine ⟨hopt, ?_⟩
  intro opts hnd hdia
  rw [init_options_def, hdia]
  have hbase : getDialectOptions ((some (OptVal.s d)).getD (.s "github")) = [] := hopt
  rw [hbase]
  by_cases he : (derase opts "dialect").isEmpty = true
  · rw [if_pos he]
    cases hdd : derase opts "dialect" with
    | nil => rfl
    | cons q rest => rw [hdd] at he; cases he
  · rw [Bool.not_eq_true] at he
    rw [he]
    simp only [Bool.false_eq_true, if_false]
    exact dupdate_nil_left _ (derase_keys_nodup opts "dialect" hnd)

/-- C4, witness: an unknown dialect `"weird"` leaves exactly the user's
other options. -/
theorem C4_witness :
    (Converter.init [("dialect", OptVal.s "weird"),
        ("x", OptVal.b true)]).service.options = [("x", OptVal.b true)] :=
  (C4_unknown_dialect_empty_preset "weird" (by decide)).2
    [("dialect", OptVal.s "weird"), ("x", OptVal.b true)] (by decide) rfl

/-- C5: the postprocessing step never leaves two adjacent blank lines
(a blank line being one that is empty after stripping whitespace), for
every input; and it collapses a run of four newlines to exactly one blank
line. -/
theorem C5_postprocess_no_adjacent_blank_lines :
    (∀ s : String, noTwoAdjacentBlank (splitLines (postprocess s).data) = true) ∧
    postprocess "a\n\n\n\nb" = "a\n\nb" := by
  constructor
  · intro s
    rw [splitLines_postprocess]
    exact noTwoAdjacentBlank_of_chainOk _ false (collapseBlankLines_chainOk _ false)
  · decide

/-- C6, counterexample: the postprocessing step does NOT trim trailing
whitespace: on input `"a "` the output's last character exists and is a
whitespace character. -/
theorem C6_counterexample :
    (postprocess "a ").data.getLast? = some ' ' ∧ pyIsSpace ' ' = true := by
  decide

/-- C6, amended: `_postprocess` only collapses blank-line runs; it never
trims trailing whitespace.  Any newline-free input — trailing spaces
included — is returned verbatim. -/
theorem C6_postprocess_no_trailing_trim :
    ∀ s : String, '\n' ∉ s.data → postprocess s = s := by
  intro s h
  show String.mk (joinLines (collapseBlankLines false (splitLines s.data))) = s
  rw [splitLines_of_no_newline s.data h, collapseBlankLines,
    if_neg (by simp), collapseBlankLines]
  rfl

/-- C6, witness: a single line ending in a space passes through
unchanged, trailing space kept. -/
theorem C6_witness : postprocess "a " = "a " :=
  C6_postprocess_no_trailing_trim "a " (by decide)

/-- C7: `convert_html` with per-call overrides serves the call from a
freshly built ephemeral service (the default options updated with the
overrides, default rules) and leaves the converter — its default
service's options and rule registry — unchanged. -/
theorem C7_convert_html_overrides_fresh_service :
    ∀ (c : Converter) (html : String) (kwargs : Dict),
      stripFragmentKeys kwargs ≠ [] →
      ((c.convert_html html kwargs).2 = c ∧
       (c.convert_html html kwargs).2.service.options = c.service.options ∧
       (c.convert_html html kwargs).2.service.rules = c.service.rules ∧
       (c.convert_html html kwargs).1 =
         (ephemeralService c (stripFragmentKeys kwargs)).turndown
           (fragmentWrap html kwargs)) := by
  intro c html kwargs h
  have he : (stripFragmentKeys kwargs).isEmpty = false := by
    cases hk : stripFragmentKeys kwargs with
    | nil => exact absurd hk h
    | cons a l => rfl
  simp only [Converter.convert_html, he, Bool.false_eq_true, if_false]
  refine ⟨?_, ?_, ?_, ?_⟩ <;> trivial

/-- C7, witness: a call with one override leaves the default converter
untouched. -/
theorem C7_witness :
    ((Converter.init []).convert_html "x"
        [("headingStyle", OptVal.s "setext")]).2 = Converter.init [] :=
  (C7_convert_html_overrides_fresh_service (Converter.init []) "x"
    [("headingStyle", OptVal.s "setext")] (by decide)).1

/-- C8: the postprocessing step is idempotent — applying it to its own
output returns that output unchanged, for every input string. -/
theorem C8_postprocess_idempotent :
    ∀ s : String, postprocess (postprocess s) = postprocess s := by
  intro s
  show String.mk (joinLines (collapseBlankLines false
    (splitLines (postprocess s).data))) = postprocess s
  rw [splitLines_postprocess,
    collapseBlankLines_of_chainOk _ false (collapseBlankLines_chainOk _ false)]
  rfl

/-- C9: at construction the dialect preset is merged with the user
options, user values taking precedence: any user-supplied key (other than
`dialect`) keeps the user's value, and any key the user did not supply
reads from the preset. -/
theorem C9_option_merge_user_precedence :
    ∀ opts : Dict, (opts.map Prod.fst).Nodup →
      ((∀ (k : String) (v : OptVal), k ≠ "dialect" → dlookup opts k = some v →
          dlookup (Converter.init opts).service.options k = some v) ∧
       (∀ k : String, dlookup opts k = none →
          dlookup (Converter.init opts).service.options k =
            dlookup (getDialectOptions
              ((dlookup opts "dialect").getD (.s "github"))) k)) :=
  fun opts hnd =>
    ⟨fun k v hk h => init_lookup_user opts k v hnd hk h,
     fun k h => init_lookup_preset opts k h⟩

/-- C9, witness: a user-supplied bullet marker overrides the github
preset's. -/
theorem C9_witness :
    dlookup (Converter.init
        [("bulletListMarker", OptVal.s "+")]).service.options
      "bulletListMarker" = some (OptVal.s "+") :=
  (C9_option_merge_user_precedence [("bulletListMarker", OptVal.s "+")]
    (by decide)).1 "bulletListMarker" (OptVal.s "+") (by decide) rfl

/-- C10: with no `dialect` key among the constructor options, the github
preset applies: every github preset key the user did not supply reads its
github value (atx headings, `-` bullets, fenced code, inlined links, and
gfm, strikethrough, tables, taskLists all true). -/
theorem C10_default_dialect_github :
    ∀ opts : Dict, dlookup opts "dialect" = none →
      ((dlookup opts "headingStyle" = none →
          dlookup (Converter.init opts).service.options "headingStyle" =
            some (OptVal.s "atx")) ∧
       (dlookup opts "bulletListMarker" = none →
          dlookup (Converter.init opts).service.options "bulletListMarker" =
            some (OptVal.s "-")) ∧
       (dlookup opts "codeBlockStyle" = none →
          dlookup (Converter.init opts).service.options "codeBlockStyle" =
            some (OptVal.s "fenced")) ∧
       (dlookup opts "linkStyle" = none →
          dlookup (Converter.init opts).service.options "linkStyle" =
            some (OptVal.s "inlined")) ∧
       (dlookup opts "gfm" = none →
          dlookup (Converter.init opts).service.options "gfm" =
            some (OptVal.b true)) ∧
       (dlookup opts "strikethrough" = none →
          dlookup (Converter.init opts).service.options "strikethrough" =
            some (OptVal.b true)) ∧
       (dlookup opts "tables" = none →
          dlookup (Converter.init opts).service.options "tables" =
            some (OptVal.b true)) ∧
       (dlookup opts "taskLists" = none →
          dlookup (Converter.init opts).service.options "taskLists" =
            some (OptVal.b true))) := by
  intro opts h
  have hbase : getDialectOptions ((dlookup opts "dialect").getD (.s "github")) =
      githubOptions := by
    rw [h]
    rfl
  refine ⟨?_, ?_, ?_, ?_, ?_, ?_, ?_, ?_⟩ <;>
    (intro hk; rw [init_lookup_preset opts _ hk, hbase]; rfl)

/-- C10, witness: the empty option set yields atx heading style. -/
theorem C10_witness :
    dlookup (Converter.init []).service.options "headingStyle" =
      some (OptVal.s "atx") :=
  (C10_default_dialect_github [] rfl).1 rfl

end MagicLens
